import Mathlib

/-!
Verification of the data-transformation pipeline of the Himalayan Database
viewer (`everst.py`).  The pipeline is: load the two DBF tables, project each
to a fixed column list (`df_peaks[peaks_cols]`, `df_exped[exped_cols]`),
left-join on `PEAKID` (`pd.merge(..., how='left')`), reorder columns
(`df_combined[ordered_columns]`), restrict to the ten most frequent `PEAKID`
values (`value_counts().head(10)` + `isin`), overwrite the `SPONSOR` column of
a copy with `bool(str(x).strip())`, and aggregate with `value_counts` per
chart.

Tables are embedded positionally: a `Table` is a column-name list together
with rows of values, and a cell is addressed by the index of its column name,
mirroring how a pandas `DataFrame` pairs its `columns` index with row data.
Python scalars (text, numbers, booleans, `None`/`NaN`) are the inductive
`Val`.
-/

namespace Himalaya

/-- A scalar cell value: text, integer, boolean, or a null (`None`/`NaN`). -/
inductive Val where
  | vstr : String → Val
  | vnum : Int → Val
  | vbool : Bool → Val
  | vnull : Val
deriving DecidableEq, Repr

/-- A table: an ordered list of column names plus rows of cell values,
positionally aligned with the column list (the pandas `DataFrame` shape). -/
structure Table where
  cols : List String
  rows : List (List Val)
deriving DecidableEq, Repr

/-- Read the cell of row `r` under column `c` of table `T`: the value at the
position of `c` in `T.cols` (null when the column is absent or the row is
short, as a pandas lookup of a missing label yields `NaN`). -/
def getCell (T : Table) (r : List Val) (c : String) : Val :=
  r.getD (T.cols.indexOf c) Val.vnull

/-- The list of values of column `c`, top to bottom (a pandas `Series`). -/
def colVals (T : Table) (c : String) : List Val :=
  T.rows.map (fun r => getCell T r c)

/-- The requested column names that the table does not have. -/
def missingCols (T : Table) (cs : List String) : List String :=
  cs.filter (fun c => decide (c ∉ T.cols))

/-- Column indexing `df[cs]`, as used both for the subset selection
(`df_peaks[peaks_cols]`, `df_exped[exped_cols]`) and for the column reorder
(`df_combined[ordered_columns]`): if every requested name is a column, the
result holds exactly the columns `cs` in that order with the cells copied
from `T`; otherwise pandas raises a `KeyError` naming a missing column. -/
def select (T : Table) (cs : List String) : Except String Table :=
  match missingCols T cs with
  | [] => .ok ⟨cs, T.rows.map (fun r => cs.map (fun c => getCell T r c))⟩
  | m :: _ => .error m

/-- Left join `pd.merge(A, B, on := k, how := left)`: every row of `A`
produces one output row per matching row of `B` (matching = equal cell under
the key column), and exactly one all-null-extended row when no row of `B`
matches.  The non-key columns of `B` are appended after `A`'s columns. -/
def joinRow (A B : Table) (k : String) (bOther : List String) (ra : List Val) :
    List (List Val) :=
  let ms := B.rows.filter (fun rb => decide (getCell B rb k = getCell A ra k))
  if ms.isEmpty then [ra ++ bOther.map (fun _ => Val.vnull)]
  else ms.map (fun rb => ra ++ bOther.map (fun c => getCell B rb c))

/-- Left join `pd.merge(A, B, on := k, how := left)` (see `joinRow`). -/
def merge (A B : Table) (k : String) : Table :=
  let bOther := B.cols.filter (fun c => decide (c ≠ k))
  ⟨A.cols ++ bOther, A.rows.flatMap (joinRow A B k bOther)⟩

/-- Number of occurrences of `v` in a list of values. -/
def countOcc (l : List Val) (v : Val) : Nat :=
  (l.filter (fun u => decide (u = v))).length

/-- Fuel-indexed worker for `distincts`; the fuel only forces structural
recursion and is always at least the list length when called. -/
def distinctsF : Nat → List Val → List Val
  | _, [] => []
  | 0, _ :: _ => []
  | n + 1, v :: t => v :: distinctsF n (t.filter (fun u => decide (u ≠ v)))

/-- The distinct values of a list in first-occurrence order (the order in
which the pandas `value_counts` hash table first meets each key). -/
def distincts (l : List Val) : List Val :=
  distinctsF l.length l

/-- Insert a key-count pair into a count-descending list, after every pair
of count at least its own: the stable descending insertion step. -/
def insertByCount (x : Val × Nat) : List (Val × Nat) → List (Val × Nat)
  | [] => [x]
  | y :: t => if y.2 < x.2 then x :: y :: t else y :: insertByCount x t

/-- Stable sort by count descending: pairs of equal count keep their
original relative order, as in the pandas `value_counts` ranking. -/
def sortByCountDesc (l : List (Val × Nat)) : List (Val × Nat) :=
  l.foldl (fun acc x => insertByCount x acc) []

/-- The counting-and-ranking core of `series.value_counts()`: one
`(value, count)` pair per distinct value, sorted by count descending; the
sort is stable, so ties keep first-occurrence order.  This coincides with
`value_counts()` exactly on a series without nulls — such as the `PEAKID`
ranking of line 91, `PEAKID` being a DBF character field that is never NA.
For a series that can hold nulls, `valueCountsDropna` below adds the
NA-dropping that `value_counts()` performs by default. -/
def valueCounts (l : List Val) : List (Val × Nat) :=
  sortByCountDesc ((distincts l).map (fun v => (v, countOcc l v)))

/-- `series.value_counts()` with its default `dropna=True`, as applied to
the `PKNAME` column on line 141: null entries (the `PKNAME` of an
expedition whose `PEAKID` matched no peak) are excluded before counting,
so no output row is produced for the null key. -/
def valueCountsDropna (l : List Val) : List (Val × Nat) :=
  valueCounts (l.filter (fun v => decide (v ≠ Val.vnull)))

/-- `series.value_counts().head(n).index.tolist()` (the `top_peaks` list):
the first `n` keys of the count-descending ranking. -/
def topKeys (T : Table) (key : String) (n : Nat) : List Val :=
  ((valueCounts (colVals T key)).take n).map (fun p => p.1)

/-- `df[df[key].isin(top_keys)]` with `top_keys` as above: keep exactly the
rows whose key cell ranks among the `n` most frequent keys.  Total: an empty
table degenerates to an empty result, nothing is raised. -/
def topNFilter (T : Table) (key : String) (n : Nat) : Table :=
  ⟨T.cols, T.rows.filter (fun r => decide (getCell T r key ∈ topKeys T key n))⟩

/-- Python `str(x)` on a cell value: strings pass through, `None` renders as
the four-letter text `None`, booleans as `True`/`False`. -/
def pyStr : Val → String
  | .vstr s => s
  | .vnum n => toString n
  | .vbool b => if b then "True" else "False"
  | .vnull => "None"

/-- A character removed by Python `str.strip()`: whitespace. -/
def isStripChar (c : Char) : Bool :=
  c = ' ' || c = '\t' || c = '\n' || c = '\r' || c = '\x0b' || c = '\x0c'

/-- Python `s.strip()` over the character list: drop leading and trailing
whitespace. -/
def stripChars (l : List Char) : List Char :=
  ((l.dropWhile isStripChar).reverse.dropWhile isStripChar).reverse

/-- The sponsor lambda `lambda x: bool(str(x).strip())`: render the value as
text, strip surrounding whitespace, test non-emptiness. -/
def sponsorBool (v : Val) : Bool :=
  !((stripChars (pyStr v).toList).isEmpty)

/-- `series.apply(lambda x: bool(str(x).strip()))` over a whole column. -/
def deriveValCol (l : List Val) : List Val :=
  l.map (fun v => Val.vbool (sponsorBool v))

/-- `df[c] = df[c].apply(f)`: overwrite column `c` cell-wise with `f`. -/
def setColumn (T : Table) (c : String) (f : Val → Val) : Table :=
  ⟨T.cols, T.rows.map (fun r =>
    r.set (T.cols.indexOf c) (f (r.getD (T.cols.indexOf c) Val.vnull)))⟩

/-- `df.copy()`: a fresh table with the same columns and cells. -/
def copyTable (T : Table) : Table :=
  ⟨T.cols, T.rows.map (fun r => r.map id)⟩

/-- The loader's observable state: the `st.cache_data` path-keyed memo table
plus a counter of filesystem reads performed so far. -/
structure LoaderState where
  cache : List (String × Table)
  reads : Nat
deriving DecidableEq, Repr

/-- The cached table for `path`, if any (first cache entry with that key). -/
def cacheLookup (s : LoaderState) (path : String) : Option Table :=
  (s.cache.find? (fun e => e.1 == path)).map (fun e => e.2)

/-- `load_df` under `@st.cache_data`: on a cache hit return the memoized
table untouched; on a miss read the file (`pd.DataFrame(DBF(path, ...))`,
modelled by the pure file-system map `fs`), memoize and return it.  Returns
the table together with the successor loader state. -/
def load_df (fs : String → Table) (s : LoaderState) (path : String) :
    Table × LoaderState :=
  match cacheLookup s path with
  | some t => (t, s)
  | none =>
      let t := fs path
      (t, ⟨(path, t) :: s.cache, s.reads + 1⟩)

/-- The two program variables touched by lines 91-95 of `everst.py`. -/
structure ProgState where
  df_combined : Table
  df_combined_top10 : Table
deriving DecidableEq, Repr

/-- Lines 91-92: `df_combined_top10 = df_combined[df_combined[PEAKID]
.isin(top_peaks)].copy()` — the combined table is kept, the top-10 subset is
a copy of the filtered rows. -/
def mkTop10State (combined : Table) (n : Nat) : ProgState :=
  { df_combined := combined,
    df_combined_top10 := copyTable (topNFilter combined "PEAKID" n) }

/-- Line 95: `df_combined_top10[SPONSOR] = df_combined_top10[SPONSOR]
.apply(lambda x: bool(str(x).strip()))` — the assignment targets only the
copied subset, never `df_combined`. -/
def applySponsorDerive (s : ProgState) : ProgState :=
  { s with df_combined_top10 :=
      setColumn s.df_combined_top10 "SPONSOR" (fun v => Val.vbool (sponsorBool v)) }

/-- The peaks table of the spec's join scenario: one Everest row. -/
def peaksTbl : Table :=
  ⟨["PEAKID", "PKNAME", "HEIGHTM"],
   [[.vstr "EVER", .vstr "Everest", .vnum 8848]]⟩

/-- The expeditions table of the spec's join scenario: two `EVER` rows and
one `XYZ` row with no matching peak. -/
def expedTbl : Table :=
  ⟨["EXPID", "PEAKID"],
   [[.vstr "E1", .vstr "EVER"], [.vstr "E2", .vstr "EVER"],
    [.vstr "E3", .vstr "XYZ"]]⟩

/-- A two-column, one-row table used to exercise column selection. -/
def pairTbl : Table :=
  ⟨["a", "b"], [[.vstr "x", .vstr "y"]]⟩

/-- A small combined-shaped table with `PEAKID`, `PKNAME` and `SPONSOR`. -/
def combinedTbl : Table :=
  ⟨["EXPID", "PEAKID", "PKNAME", "SPONSOR"],
   [[.vstr "E1", .vstr "EVER", .vstr "Everest", .vstr "ABC Corp"],
    [.vstr "E2", .vstr "EVER", .vstr "Everest", .vstr "  "],
    [.vstr "E3", .vstr "XYZ", .vnull, .vstr ""]]⟩

/-- A combined-shaped table whose single expedition's `PEAKID` matched no
peak, so its `PKNAME` is null — a spec-valid TopNSubset shape (§3: peak
fields are null when no matching `PEAKID` exists). -/
def unmatchedTbl : Table :=
  ⟨["EXPID", "PEAKID", "PKNAME"], [[.vstr "E3", .vstr "XYZ", .vnull]]⟩

section Lemmas

/-- If the keys of the rows are pairwise distinct, at most one row carries
any given key. -/
theorem length_filter_key_le_one {α β : Type} [DecidableEq β]
    (g : α → β) (v : β) :
    ∀ l : List α, (l.map g).Nodup →
      (l.filter (fun x => decide (g x = v))).length ≤ 1 := by
  intro l
  induction l with
  | nil => simp
  | cons x t ih =>
    intro h
    rw [List.map_cons, List.nodup_cons] at h
    by_cases hx : g x = v
    · have ht : t.filter (fun y => decide (g y = v)) = [] := by
        rw [List.filter_eq_nil_iff]
        intro y hy hgy
        rw [decide_eq_true_eq] at hgy
        exact h.1 (by rw [← hx] at hgy; exact hgy ▸ List.mem_map_of_mem g hy)
      simp [List.filter_cons, hx, ht]
    · simpa [List.filter_cons, hx] using ih h.2

/-- Under unique keys in `B`, every left row produces exactly one joined
row. -/
theorem joinRow_length_eq_one (A B : Table) (k : String)
    (bOther : List String) (ra : List Val)
    (hB : (B.rows.map (fun rb => getCell B rb k)).Nodup) :
    (joinRow A B k bOther ra).length = 1 := by
  unfold joinRow
  by_cases h : (B.rows.filter
      (fun rb => decide (getCell B rb k = getCell A ra k))).isEmpty
  · simp [h]
  · rw [if_neg (by simpa using h)]
    rw [List.length_map]
    have hle : (B.rows.filter
        (fun rb => decide (getCell B rb k = getCell A ra k))).length ≤ 1 := by
      simpa using length_filter_key_le_one (fun rb => getCell B rb k)
        (getCell A ra k) B.rows hB
    have hpos : 0 < (B.rows.filter
        (fun rb => decide (getCell B rb k = getCell A ra k))).length := by
      rw [List.length_pos]
      simpa [List.isEmpty_iff] using h
    omega

/-- Summing a constant 1 over a list counts its elements. -/
theorem sum_map_one {α : Type} (l : List α) :
    (l.map (fun _ => (1 : Nat))).sum = l.length := by
  induction l with
  | nil => rfl
  | cons x t ih => simp [ih, Nat.add_comm]

end Lemmas

/-- C1: when the peaks table has pairwise-distinct keys (every valid peaks
table does, `PEAKID` being unique), the left join produces exactly one
output row per expedition row — same row count — and a row whose key
matches no peak appears extended by nulls; the join is total (a plain
function) so it never raises and never drops a zero-match row. -/
theorem merge_left_join_cardinality (A B : Table) (k : String)
    (hB : (B.rows.map (fun rb => getCell B rb k)).Nodup) :
    (merge A B k).rows.length = A.rows.length ∧
      ∀ ra ∈ A.rows,
        (∀ rb ∈ B.rows, getCell B rb k ≠ getCell A ra k) →
          ra ++ (B.cols.filter (fun c => decide (c ≠ k))).map (fun _ => Val.vnull)
            ∈ (merge A B k).rows := by
  have hrows : (merge A B k).rows =
      A.rows.flatMap (joinRow A B k (B.cols.filter (fun c => decide (c ≠ k)))) :=
    rfl
  constructor
  · rw [hrows, List.length_flatMap]
    have hmap : A.rows.map
        (List.length ∘ joinRow A B k (B.cols.filter (fun c => decide (c ≠ k)))) =
        A.rows.map (fun _ => 1) :=
      List.map_congr_left (fun ra _ => joinRow_length_eq_one A B k _ ra hB)
    rw [hmap, sum_map_one]
  · intro ra hra hno
    have hms : B.rows.filter
        (fun rb => decide (getCell B rb k = getCell A ra k)) = [] := by
      rw [List.filter_eq_nil_iff]
      intro rb hrb h
      rw [decide_eq_true_eq] at h
      exact hno rb hrb h
    rw [hrows]
    exact List.mem_flatMap.mpr ⟨ra, hra, by simp [joinRow, hms]⟩

/-- Witness for C1 at the spec's join scenario (peaks = one Everest row,
expeditions = two matching rows and one unmatched row). -/
theorem merge_left_join_cardinality_witness :
    (merge expedTbl peaksTbl "PEAKID").rows.length = expedTbl.rows.length :=
  (merge_left_join_cardinality expedTbl peaksTbl "PEAKID" (by decide)).1

/-- C6: `df[cs]` as subset selection: when every requested name is a column
of `T` it returns exactly the columns `cs` in that order with every cell
equal to the source cell; when some requested name is absent it fails with
an error naming a missing column (nothing is silently dropped). -/
theorem select_subset_spec (T : Table) (C : List String) :
    ((∀ c ∈ C, c ∈ T.cols) →
      ∃ rows, select T C = .ok ⟨C, rows⟩ ∧ rows.length = T.rows.length ∧
        ∀ i, i < T.rows.length → ∀ c ∈ C,
          getCell ⟨C, rows⟩ (rows.getD i []) c =
            getCell T (T.rows.getD i []) c) ∧
    ((∃ c ∈ C, c ∉ T.cols) →
      ∃ m, select T C = .error m ∧ m ∈ C ∧ m ∉ T.cols) := by
  constructor
  · intro h
    have hm : missingCols T C = [] := by
      rw [missingCols, List.filter_eq_nil_iff]
      intro c hc hnc
      rw [decide_eq_true_eq] at hnc
      exact hnc (h c hc)
    refine ⟨_, by rw [select, hm], by simp, ?_⟩
    intro i hi c hc
    have h1 : (T.rows.map (fun r => C.map (fun c => getCell T r c))).getD i [] =
        C.map (fun c => getCell T (T.rows.getD i []) c) := by
      rw [List.getD_eq_getElem?_getD, List.getElem?_map,
        List.getElem?_eq_getElem hi, List.getD_eq_getElem?_getD,
        List.getElem?_eq_getElem hi]
      rfl
    rw [h1, getCell]
    have hidx : C.indexOf c < C.length := List.indexOf_lt_length.mpr hc
    rw [List.getD_eq_getElem?_getD, List.getElem?_map,
      List.getElem?_eq_getElem hidx]
    simp [List.getElem_indexOf]
  · rintro ⟨c, hc, hnc⟩
    have hmem : c ∈ missingCols T C := by
      rw [missingCols, List.mem_filter]
      exact ⟨hc, by simpa using hnc⟩
    rcases hcase : missingCols T C with _ | ⟨m, t⟩
    · rw [hcase] at hmem
      cases hmem
    · have hm : m ∈ missingCols T C := by
        rw [hcase]
        exact List.mem_cons_self m t
      rw [missingCols, List.mem_filter] at hm
      exact ⟨m, by rw [select, hcase], hm.1, by simpa using hm.2⟩

/-- Witness for C6: projecting the scenario peaks table onto two of its
columns succeeds cell-for-cell, and requesting the absent column `NOPE`
fails naming it. -/
theorem select_subset_spec_witness :
    (∃ rows, select peaksTbl ["PEAKID", "PKNAME"] =
        .ok ⟨["PEAKID", "PKNAME"], rows⟩ ∧
      rows.length = peaksTbl.rows.length ∧
        ∀ i, i < peaksTbl.rows.length → ∀ c ∈ ["PEAKID", "PKNAME"],
          getCell ⟨["PEAKID", "PKNAME"], rows⟩ (rows.getD i []) c =
            getCell peaksTbl (peaksTbl.rows.getD i []) c) ∧
    (∃ m, select peaksTbl ["PEAKID", "NOPE"] = .error m ∧
      m ∈ ["PEAKID", "NOPE"] ∧ m ∉ peaksTbl.cols) :=
  ⟨(select_subset_spec peaksTbl ["PEAKID", "PKNAME"]).1 (by decide),
   (select_subset_spec peaksTbl ["PEAKID", "NOPE"]).2 ⟨"NOPE", by decide, by decide⟩⟩

/-- C7 counterexample: the column reorder is the same `df[L]` indexing as
the subset selection, so a list that merely omits a column of the table
does not fail — here `pairTbl` has columns `a, b` and the request `[a]`
succeeds, silently dropping `b`, where the claim demands a
`SchemaMismatchError`. -/
theorem select_reorder_counterexample :
    "b" ∈ pairTbl.cols ∧ "b" ∉ (["a"] : List String) ∧
      select pairTbl ["a"] = .ok ⟨["a"], [[Val.vstr "x"]]⟩ :=
  ⟨by decide, by decide, rfl⟩

/-- C7 amended: `df[L]` fails (naming a missing column) only when `L` names
a column the table lacks; whenever every name in `L` is a column of `T` —
even when `L` omits columns of `T` — it returns the columns `L` in that
order. -/
theorem select_reorder_no_membership_check (T : Table) (L : List String)
    (h : ∀ c ∈ L, c ∈ T.cols) :
    ∃ rows, select T L = .ok ⟨L, rows⟩ ∧ rows.length = T.rows.length := by
  have hm : missingCols T L = [] := by
    rw [missingCols, List.filter_eq_nil_iff]
    intro c hc hnc
    rw [decide_eq_true_eq] at hnc
    exact hnc (h c hc)
  exact ⟨_, by rw [select, hm], by simp⟩

/-- Witness for the amended C7: reordering `pairTbl`'s two columns to
`[b, a]` succeeds with the same row count. -/
theorem select_reorder_witness :
    ∃ rows, select pairTbl ["b", "a"] = .ok ⟨["b", "a"], rows⟩ ∧
      rows.length = pairTbl.rows.length :=
  select_reorder_no_membership_check pairTbl ["b", "a"] (by decide)

section ValueCountLemmas

/-- The distinct-values worker on an empty list. -/
theorem distinctsF_nil (n : Nat) : distinctsF n [] = [] := by
  cases n <;> rfl

/-- The distinct-values worker on a nonempty list with positive fuel. -/
theorem distinctsF_cons (n : Nat) (v : Val) (t : List Val) :
    distinctsF (n + 1) (v :: t) =
      v :: distinctsF n (t.filter (fun u => decide (u ≠ v))) :=
  rfl

/-- Counting a value at the head of a list. -/
theorem countOcc_cons_self (v : Val) (t : List Val) :
    countOcc (v :: t) v = countOcc t v + 1 := by
  simp [countOcc, List.filter_cons]

/-- Counting a value under a different head. -/
theorem countOcc_cons_ne {x u : Val} (h : x ≠ u) (t : List Val) :
    countOcc (x :: t) u = countOcc t u := by
  simp [countOcc, List.filter_cons, h]

/-- Membership in the fuelled distinct-values worker agrees with list
membership once the fuel covers the list. -/
theorem mem_distinctsF :
    ∀ (n : Nat) (l : List Val), l.length ≤ n →
      ∀ u, u ∈ distinctsF n l ↔ u ∈ l := by
  intro n
  induction n with
  | zero =>
    intro l hl u
    rw [Nat.le_zero, List.length_eq_zero] at hl
    subst hl
    simp [distinctsF]
  | succ n ih =>
    intro l hl u
    cases l with
    | nil => simp [distinctsF]
    | cons v t =>
      have ht : (t.filter (fun x => decide (x ≠ v))).length ≤ n := by
        have := List.length_filter_le (fun x => decide (x ≠ v)) t
        simp at hl
        omega
      rw [distinctsF, List.mem_cons, ih _ ht u, List.mem_filter, List.mem_cons]
      by_cases hu : u = v
      · simp [hu]
      · simp [hu]

/-- The distinct values of a list are its members. -/
theorem mem_distincts {l : List Val} {u : Val} : u ∈ distincts l ↔ u ∈ l :=
  mem_distinctsF l.length l (Nat.le_refl _) u

/-- The fuelled distinct-values worker produces no duplicates. -/
theorem nodup_distinctsF :
    ∀ (n : Nat) (l : List Val), l.length ≤ n → (distinctsF n l).Nodup := by
  intro n
  induction n with
  | zero =>
    intro l hl
    rw [Nat.le_zero, List.length_eq_zero] at hl
    subst hl
    rw [distinctsF_nil]
    exact List.nodup_nil
  | succ n ih =>
    intro l hl
    cases l with
    | nil =>
      rw [distinctsF_nil]
      exact List.nodup_nil
    | cons v t =>
      have ht : (t.filter (fun x => decide (x ≠ v))).length ≤ n := by
        have := List.length_filter_le (fun x => decide (x ≠ v)) t
        simp at hl
        omega
      rw [distinctsF_cons, List.nodup_cons]
      refine ⟨fun hv => ?_, ih _ ht⟩
      rw [mem_distinctsF _ _ ht, List.mem_filter] at hv
      simpa using hv.2

/-- The distinct-values list has no duplicates. -/
theorem nodup_distincts (l : List Val) : (distincts l).Nodup :=
  nodup_distinctsF l.length l (Nat.le_refl _)

/-- Removing the occurrences of `v` leaves the count of any other value
unchanged. -/
theorem countOcc_filter_ne {u v : Val} (h : u ≠ v) :
    ∀ l : List Val, countOcc (l.filter (fun x => decide (x ≠ v))) u = countOcc l u := by
  intro l
  induction l with
  | nil => rfl
  | cons x t ih =>
    by_cases hx : x = v
    · subst hx
      rw [List.filter_cons_of_neg (by simp), ih, countOcc_cons_ne h.symm]
    · rw [List.filter_cons_of_pos (by simpa using hx)]
      by_cases hxu : x = u
      · subst hxu
        rw [countOcc_cons_self, countOcc_cons_self, ih]
      · rw [countOcc_cons_ne hxu, countOcc_cons_ne hxu, ih]

/-- The occurrences of `v` and the rows surviving the `≠ v` filter
partition the list. -/
theorem countOcc_add_filter_ne (v : Val) :
    ∀ l : List Val,
      countOcc l v + (l.filter (fun u => decide (u ≠ v))).length = l.length := by
  intro l
  induction l with
  | nil => rfl
  | cons x t ih =>
    by_cases hx : x = v
    · subst hx
      rw [countOcc_cons_self, List.filter_cons_of_neg (by simp),
        List.length_cons]
      omega
    · rw [countOcc_cons_ne hx, List.filter_cons_of_pos (by simpa using hx),
        List.length_cons, List.length_cons]
      omega

/-- Summing the occurrence counts of the distinct values recovers the list
length (fuelled form). -/
theorem sum_counts_distinctsF :
    ∀ (n : Nat) (l : List Val), l.length ≤ n →
      ((distinctsF n l).map (fun v => countOcc l v)).sum = l.length := by
  intro n
  induction n with
  | zero =>
    intro l hl
    rw [Nat.le_zero, List.length_eq_zero] at hl
    subst hl
    rw [distinctsF_nil]
    rfl
  | succ n ih =>
    intro l hl
    cases l with
    | nil =>
      rw [distinctsF_nil]
      rfl
    | cons v t =>
      have ht : (t.filter (fun x => decide (x ≠ v))).length ≤ n := by
        have := List.length_filter_le (fun x => decide (x ≠ v)) t
        simp at hl
        omega
      have hcongr :
          (distinctsF n (t.filter (fun x => decide (x ≠ v)))).map
              (fun u => countOcc (v :: t) u) =
            (distinctsF n (t.filter (fun x => decide (x ≠ v)))).map
              (fun u => countOcc (t.filter (fun x => decide (x ≠ v))) u) := by
        refine List.map_congr_left ?_
        intro u hu
        rw [mem_distinctsF _ _ ht, List.mem_filter] at hu
        have huv : u ≠ v := by simpa using hu.2
        rw [countOcc_cons_ne huv.symm, countOcc_filter_ne huv t]
      rw [distinctsF_cons]
      simp only [List.map_cons, List.sum_cons]
      rw [countOcc_cons_self, hcongr, ih _ ht, List.length_cons]
      have hpart := countOcc_add_filter_ne v t
      omega

/-- Summing the per-value counts over the distinct values gives the list
length. -/
theorem sum_counts_distincts (l : List Val) :
    ((distincts l).map (fun v => countOcc l v)).sum = l.length :=
  sum_counts_distinctsF l.length l (Nat.le_refl _)

/-- The stable descending insertion only reorders. -/
theorem insertByCount_perm (x : Val × Nat) :
    ∀ l : List (Val × Nat), (insertByCount x l).Perm (x :: l) := by
  intro l
  induction l with
  | nil => exact List.Perm.refl _
  | cons y t ih =>
    rw [insertByCount]
    by_cases h : y.2 < x.2
    · rw [if_pos h]
    · rw [if_neg h]
      exact (ih.cons y).trans (List.Perm.swap x y t)

/-- The count-descending sort is a permutation. -/
theorem sortByCountDesc_perm (l : List (Val × Nat)) :
    (sortByCountDesc l).Perm l := by
  have key : ∀ (l acc : List (Val × Nat)),
      (l.foldl (fun acc x => insertByCount x acc) acc).Perm (l ++ acc) := by
    intro l
    induction l with
    | nil => intro acc; simp
    | cons x t ih =>
      intro acc
      rw [List.foldl_cons]
      refine (ih (insertByCount x acc)).trans ?_
      refine (List.Perm.append_left t (insertByCount_perm x acc)).trans ?_
      exact List.perm_middle
  simpa using key l []

/-- `value_counts` is a permutation of the distinct values paired with
their counts. -/
theorem valueCounts_perm (l : List Val) :
    (valueCounts l).Perm ((distincts l).map (fun v => (v, countOcc l v))) :=
  sortByCountDesc_perm _

/-- The keys of `value_counts` are a permutation of the distinct values. -/
theorem valueCounts_keys_perm (l : List Val) :
    ((valueCounts l).map (fun p => p.1)).Perm (distincts l) := by
  have h := (valueCounts_perm l).map (fun p : Val × Nat => p.1)
  rw [List.map_map] at h
  have hid : ((fun p : Val × Nat => p.1) ∘ fun v => (v, countOcc l v)) =
      fun v : Val => v := rfl
  rw [hid] at h
  simpa using h

/-- The counts of `value_counts` sum to the list length. -/
theorem valueCounts_sum (l : List Val) :
    ((valueCounts l).map (fun p => p.2)).sum = l.length := by
  have h := ((valueCounts_perm l).map (fun p : Val × Nat => p.2)).sum_eq
  rw [List.map_map] at h
  rw [h]
  exact sum_counts_distincts l

/-- Mapping under a filter whose predicate factors through the map. -/
theorem map_filter_comp {α β : Type} (f : α → β) (p : β → Bool) :
    ∀ l : List α, (l.filter (fun x => p (f x))).map f = (l.map f).filter p := by
  intro l
  induction l with
  | nil => rfl
  | cons x t ih =>
    by_cases h : p (f x)
    · simp only [List.map_cons, List.filter_cons, h, if_true, ih]
    · simp only [List.map_cons, List.filter_cons, h, if_false, ih,
        Bool.false_eq_true]

/-- The selected top keys have no duplicates. -/
theorem topKeys_nodup (T : Table) (key : String) (n : Nat) :
    (topKeys T key n).Nodup := by
  have hvc : ((valueCounts (colVals T key)).map (fun p => p.1)).Nodup :=
    ((valueCounts_keys_perm (colVals T key)).nodup_iff).mpr
      (nodup_distincts (colVals T key))
  rw [topKeys]
  exact List.Nodup.sublist
    (List.Sublist.map _ (List.take_sublist n (valueCounts (colVals T key)))) hvc

/-- Every selected top key occurs in the key column. -/
theorem topKeys_mem (T : Table) (key : String) (n : Nat) :
    ∀ v ∈ topKeys T key n, v ∈ colVals T key := by
  intro v hv
  rw [topKeys] at hv
  have h1 : v ∈ (valueCounts (colVals T key)).map (fun p => p.1) :=
    (List.Sublist.map _ (List.take_sublist n (valueCounts (colVals T key)))).mem hv
  have h2 : v ∈ distincts (colVals T key) :=
    (valueCounts_keys_perm (colVals T key)).mem_iff.mp h1
  exact mem_distincts.mp h2

/-- There are `min n (number of distinct keys)` selected top keys. -/
theorem topKeys_length (T : Table) (key : String) (n : Nat) :
    (topKeys T key n).length = min n (distincts (colVals T key)).length := by
  rw [topKeys, List.length_map, List.length_take]
  congr 1
  rw [(valueCounts_perm (colVals T key)).length_eq, List.length_map]

end ValueCountLemmas

/-- C4: the top-N filter returns a subset of the table's rows, keeps every
row whose key ranks among the selected top-N keys (all matching rows, not
just N), and the number of distinct keys in the result is
`min N (number of distinct keys in the table)`. -/
theorem topn_filter_spec (T : Table) (key : String) (n : Nat) :
    (topNFilter T key n).rows.Sublist T.rows ∧
      (∀ r ∈ T.rows, getCell T r key ∈ topKeys T key n →
        r ∈ (topNFilter T key n).rows) ∧
      (distincts (colVals (topNFilter T key n) key)).length =
        min n (distincts (colVals T key)).length := by
  refine ⟨List.filter_sublist T.rows, fun r hr hmem => ?_, ?_⟩
  · simp only [topNFilter]
    exact List.mem_filter.mpr ⟨hr, by simpa using hmem⟩
  · have hcol : colVals (topNFilter T key n) key =
        (colVals T key).filter (fun v => decide (v ∈ topKeys T key n)) := by
      rw [topNFilter, colVals, colVals]
      exact map_filter_comp (fun r => getCell T r key)
        (fun v => decide (v ∈ topKeys T key n)) T.rows
    have hset : ∀ u,
        u ∈ distincts ((colVals T key).filter
          (fun v => decide (v ∈ topKeys T key n))) ↔
          u ∈ topKeys T key n := by
      intro u
      rw [mem_distincts, List.mem_filter]
      constructor
      · exact fun h => by simpa using h.2
      · exact fun h => ⟨topKeys_mem T key n u h, by simpa using h⟩
    have hperm : (distincts ((colVals T key).filter
        (fun v => decide (v ∈ topKeys T key n)))).Perm (topKeys T key n) :=
      (List.perm_ext_iff_of_nodup (nodup_distincts _)
        (topKeys_nodup T key n)).mpr hset
    rw [hcol, hperm.length_eq, topKeys_length]

/-- Witness for C4: in the scenario expeditions table the key `EVER` is the
single most frequent key, and the row `E1` carrying it is kept by the
top-1 filter. -/
theorem topn_filter_spec_witness :
    [Val.vstr "E1", Val.vstr "EVER"] ∈ (topNFilter expedTbl "PEAKID" 1).rows :=
  (topn_filter_spec expedTbl "PEAKID" 1).2.1 [Val.vstr "E1", Val.vstr "EVER"]
    (by decide) (by decide)

/-- C5 counterexample: on a zero-row table with N = 10 the code's top-N
filter (`value_counts().head(10)` then `isin`) returns the empty table —
it does not fail, where the claim demands an `EmptyInputError`. -/
theorem topn_filter_empty_counterexample :
    topNFilter ⟨["PEAKID"], []⟩ "PEAKID" 10 = ⟨["PEAKID"], []⟩ := rfl

/-- C5 amended: the top-N filter is a total function that never raises: it
always returns a subset of the input rows, and on a zero-row table it
degenerates to the zero-row table for every N. -/
theorem topn_filter_total (T : Table) (key : String) (n : Nat) :
    (topNFilter T key n).rows.Sublist T.rows ∧
      topNFilter ⟨T.cols, []⟩ key n = ⟨T.cols, []⟩ :=
  ⟨List.filter_sublist T.rows, rfl⟩

/-- C8 counterexample: on a spec-valid one-row TopNSubset whose expedition
matched no peak, the `PKNAME` column holds one null, so one distinct key is
present, yet `value_counts` (default `dropna=True`) emits no row at all and
its counts sum to 0, not to the row count 1. -/
theorem count_by_key_counterexample :
    (topNFilter unmatchedTbl "PEAKID" 1).rows.length = 1 ∧
      distincts (colVals (topNFilter unmatchedTbl "PEAKID" 1) "PKNAME") =
        [Val.vnull] ∧
      valueCountsDropna (colVals (topNFilter unmatchedTbl "PEAKID" 1) "PKNAME") =
        [] :=
  ⟨by decide, by decide, by decide⟩

/-- C8 amended: `value_counts` on the `PKNAME` column of the top-N subset
produces exactly one entry per distinct non-null key present (its key list
is a permutation of the distinct values of the null-stripped column), the
per-key counts sum to the number of rows whose key is non-null, and each
emitted count is the true occurrence count of its key in the column; rows
with a null key (expeditions whose `PEAKID` matched no peak) are excluded
by the default NA-dropping and receive no output row. -/
theorem count_by_key_partition (S : Table) (n : Nat) :
    ((valueCountsDropna (colVals (topNFilter S "PEAKID" n) "PKNAME")).map
        (fun p => p.1)).Perm
      (distincts ((colVals (topNFilter S "PEAKID" n) "PKNAME").filter
        (fun v => decide (v ≠ Val.vnull)))) ∧
    ((valueCountsDropna (colVals (topNFilter S "PEAKID" n) "PKNAME")).map
        (fun p => p.2)).sum =
      ((colVals (topNFilter S "PEAKID" n) "PKNAME").filter
        (fun v => decide (v ≠ Val.vnull))).length ∧
    ∀ p ∈ valueCountsDropna (colVals (topNFilter S "PEAKID" n) "PKNAME"),
      p.1 ≠ Val.vnull ∧
        p.2 = countOcc (colVals (topNFilter S "PEAKID" n) "PKNAME") p.1 := by
  refine ⟨valueCounts_keys_perm _, valueCounts_sum _, fun p hp => ?_⟩
  have hp2 : p ∈ ((distincts ((colVals (topNFilter S "PEAKID" n) "PKNAME").filter
      (fun v => decide (v ≠ Val.vnull)))).map
        (fun v => (v, countOcc ((colVals (topNFilter S "PEAKID" n) "PKNAME").filter
          (fun v => decide (v ≠ Val.vnull))) v))) :=
    (valueCounts_perm _).mem_iff.mp hp
  rcases List.mem_map.mp hp2 with ⟨v, hv, hpv⟩
  have hvf : v ∈ (colVals (topNFilter S "PEAKID" n) "PKNAME").filter
      (fun v => decide (v ≠ Val.vnull)) := mem_distincts.mp hv
  have hvn : v ≠ Val.vnull := by
    have := (List.mem_filter.mp hvf).2
    simpa using this
  subst hpv
  exact ⟨hvn, countOcc_filter_ne hvn _⟩

/-- Witness for the amended C8 on the small combined-shaped table: the
top-1 subset holds the two Everest rows, and `value_counts` emits the pair
`(Everest, 2)` whose count is the true occurrence count in the column. -/
theorem count_by_key_partition_witness :
    (Val.vstr "Everest", 2).1 ≠ Val.vnull ∧
      (Val.vstr "Everest", 2).2 =
        countOcc (colVals (topNFilter combinedTbl "PEAKID" 1) "PKNAME")
          (Val.vstr "Everest", 2).1 :=
  (count_by_key_partition combinedTbl 1).2.2 (Val.vstr "Everest", 2) (by decide)

/-- C2 counterexample: the sponsor lambda renders `None` through `str`,
giving the non-empty text `None`, so the scenario inputs derive to
`[False, False, True, True]` — not the `[False, False, True, False]` the
claim states for a null value. -/
theorem sponsor_null_counterexample :
    [Val.vstr "  ", Val.vstr "", Val.vstr "ABC Corp", Val.vnull].map sponsorBool =
      [false, false, true, true] := by
  decide

/-- C2 amended: for text values the derived boolean is true exactly when
the whitespace-stripped text is non-empty, but a null value renders as the
text `None` and derives to true (null is not treated as empty text); the
scenario list derives to `[False, False, True, True]`. -/
theorem sponsor_derive_spec :
    (∀ s : String,
      sponsorBool (Val.vstr s) = true ↔ stripChars s.toList ≠ []) ∧
      sponsorBool Val.vnull = true ∧
      [Val.vstr "  ", Val.vstr "", Val.vstr "ABC Corp", Val.vnull].map sponsorBool =
        [false, false, true, true] := by
  refine ⟨fun s => ?_, rfl, by decide⟩
  rw [sponsorBool, pyStr]
  cases h : stripChars s.toList <;> simp [h]

/-- C3 counterexample: deriving from the empty-text column gives `False`,
but deriving once more gives `True` (`str(False)` is the non-empty text
`False`), so applying the derivation to its own output changes it. -/
theorem derive_idempotent_counterexample :
    deriveValCol [Val.vstr ""] = [Val.vbool false] ∧
      deriveValCol (deriveValCol [Val.vstr ""]) = [Val.vbool true] :=
  ⟨by decide, by decide⟩

/-- C3 amended: the deriver is not idempotent — applying it to any derived
boolean column yields the all-True column, because both `True` and `False`
render as non-empty text; deriving twice therefore equals deriving once
only on columns whose every value derived to true. -/
theorem derive_twice_all_true (l : List Val) :
    deriveValCol (deriveValCol l) = l.map (fun _ => Val.vbool true) := by
  rw [deriveValCol, deriveValCol, List.map_map]
  refine List.map_congr_left ?_
  intro v _
  show Val.vbool (sponsorBool (Val.vbool (sponsorBool v))) = Val.vbool true
  cases hb : sponsorBool v <;> rfl

/-- A cache hit returns the memoized table and leaves the state unchanged:
no filesystem read happens. -/
theorem load_df_hit {fs : String → Table} {s : LoaderState} {path : String}
    {t : Table} (h : cacheLookup s path = some t) :
    load_df fs s path = (t, s) := by
  simp [load_df, h]

/-- After loading a path, the cache holds exactly the returned table for
that path. -/
theorem cacheLookup_after_load (fs : String → Table) (s : LoaderState)
    (path : String) :
    cacheLookup (load_df fs s path).2 path = some (load_df fs s path).1 := by
  cases h : cacheLookup s path with
  | some t => simp [load_df, h]
  | none =>
    have h' := h
    unfold cacheLookup at h'
    simp [load_df, cacheLookup, h', List.find?_cons]

/-- Loading any path preserves every existing cache association. -/
theorem cacheLookup_mono (fs : String → Table) (s : LoaderState)
    (q path : String) (t : Table) (h : cacheLookup s path = some t) :
    cacheLookup (load_df fs s q).2 path = some t := by
  cases hq : cacheLookup s q with
  | some u => simp [load_df, hq, h]
  | none =>
    by_cases hpq : q = path
    · subst hpq
      rw [h] at hq
      cases hq
    · have h' := h
      have hq' := hq
      unfold cacheLookup at h' hq'
      simp [load_df, cacheLookup, hq', List.find?_cons, beq_iff_eq, hpq, h']

/-- C9: the loader is deterministic and idempotent per path.  Re-requesting
a just-loaded path returns the same in-memory table with the loader state
(cache and filesystem-read counter) unchanged, and the same holds after any
number of interleaved loads of other paths: the file behind a cached path
is never read again. -/
theorem load_df_cached_idempotent (fs : String → Table) (s : LoaderState)
    (p : String) :
    load_df fs (load_df fs s p).2 p = ((load_df fs s p).1, (load_df fs s p).2) ∧
      ∀ q, load_df fs (load_df fs (load_df fs s p).2 q).2 p =
        ((load_df fs s p).1, (load_df fs (load_df fs s p).2 q).2) := by
  constructor
  · exact load_df_hit (cacheLookup_after_load fs s p)
  · intro q
    exact load_df_hit (cacheLookup_mono fs _ q p _ (cacheLookup_after_load fs s p))

/-- Writing one list position leaves reads of any other position
unchanged. -/
theorem getD_set_ne {l : List Val} {i j : Nat} {v d : Val} (h : i ≠ j) :
    (l.set i v).getD j d = l.getD j d := by
  rw [List.getD_eq_getElem?_getD, List.getD_eq_getElem?_getD,
    List.getElem?_set_ne h]

/-- Overwriting column `c` (present in the table) leaves every other
column's values unchanged. -/
theorem colVals_setColumn_ne (T : Table) (c c' : String) (f : Val → Val)
    (hc : c ∈ T.cols) (hne : c' ≠ c) :
    colVals (setColumn T c f) c' = colVals T c' := by
  rw [colVals, colVals, setColumn]
  rw [List.map_map]
  refine List.map_congr_left ?_
  intro r _
  have hij : T.cols.indexOf c ≠ T.cols.indexOf c' := by
    intro heq
    by_cases h' : c' ∈ T.cols
    · have h1 : T.cols.indexOf c < T.cols.length := List.indexOf_lt_length.mpr hc
      have h2 : T.cols.indexOf c' < T.cols.length := List.indexOf_lt_length.mpr h'
      have e1 : T.cols[T.cols.indexOf c]? = some c := by
        rw [List.getElem?_eq_getElem h1, List.getElem_indexOf h1]
      have e2 : T.cols[T.cols.indexOf c']? = some c' := by
        rw [List.getElem?_eq_getElem h2, List.getElem_indexOf h2]
      rw [heq] at e1
      exact hne (Option.some.inj (e2.symm.trans e1))
    · have h1 : T.cols.indexOf c < T.cols.length := List.indexOf_lt_length.mpr hc
      have h2 : T.cols.indexOf c' = T.cols.length := List.indexOf_eq_length.mpr h'
      omega
  exact getD_set_ne hij

/-- C10: the sponsor derivation runs on a copy of the top-10 subset: the
combined table bound before the derivation is exactly the combined table
after it (its `SPONSOR` column still holds the original text), and every
column of the derived top-10 subset other than `SPONSOR` equals the
corresponding column of the combined table restricted to the top-10 keys. -/
theorem sponsor_derive_frame (T : Table) (n : Nat)
    (hS : "SPONSOR" ∈ T.cols) :
    (applySponsorDerive (mkTop10State T n)).df_combined = T ∧
      ∀ c, c ≠ "SPONSOR" →
        colVals (applySponsorDerive (mkTop10State T n)).df_combined_top10 c =
          colVals (topNFilter T "PEAKID" n) c := by
  refine ⟨rfl, fun c hc => ?_⟩
  have hcopy : copyTable (topNFilter T "PEAKID" n) = topNFilter T "PEAKID" n := by
    rw [copyTable]
    simp
  rw [applySponsorDerive, mkTop10State]
  simp only []
  rw [hcopy]
  exact colVals_setColumn_ne (topNFilter T "PEAKID" n) "SPONSOR" c _ hS hc

/-- Witness for C10 on a small combined-shaped table: the combined table
survives the derivation unchanged and the `PKNAME` column of the derived
top-1 subset matches the filtered combined table. -/
theorem sponsor_derive_frame_witness :
    (applySponsorDerive (mkTop10State combinedTbl 1)).df_combined = combinedTbl ∧
      colVals (applySponsorDerive (mkTop10State combinedTbl 1)).df_combined_top10
          "PKNAME" =
        colVals (topNFilter combinedTbl "PEAKID" 1) "PKNAME" :=
  ⟨(sponsor_derive_frame combinedTbl 1 (by decide)).1,
   (sponsor_derive_frame combinedTbl 1 (by decide)).2 "PKNAME" (by decide)⟩

end Himalaya
